import Mathlib

/-!
A shallow embedding of the cinic .ini parser (src/cinic.c, src/cinic.h).

Lines and strings are modelled as `List Char` (C strings never contain NUL,
so the NUL terminator is represented by the end of the list).  `ctype.h`
character classes are the ASCII/C-locale ones.  The process-wide
configuration flags `ALLOW_GLOBAL_RECORDS` and `ALLOW_EMPTY_LISTS` are
passed explicitly; the list brackets are the default `LIST_BRACKET = "[]"`.
`exit`-on-error in the C driver is modelled by a `fatal` outcome value.
-/

namespace Cinic

/-- C-locale `isspace`: space, \t, \n, \v, \f, \r. -/
def isspace (c : Char) : Bool :=
  c = ' ' || c = '\t' || c = '\n' || c = '\x0b' || c = '\x0c' || c = '\r'

/-- C-locale `isalnum` (ASCII letters and digits). -/
def isalnum (c : Char) : Bool :=
  ('a' ≤ c && c ≤ 'z') || ('A' ≤ c && c ≤ 'Z') || ('0' ≤ c && c ≤ '9')

/-- `is_comment` from cinic.c: `#` or `;`. -/
def is_comment (c : Char) : Bool :=
  c = ';' || c = '#'

/-- `is_allowed` from cinic.c: the restricted character set for keys,
section names and values; whitespace only when `ws_allowed`. -/
def is_allowed (c : Char) (ws_allowed : Bool) : Bool :=
  c = '.' || c = '-' || c = '_' || c = '@' || c = '/' || c = '*' ||
  c = '?' || c = '%' || c = '&' || isalnum c || (isspace c && ws_allowed)

/-- `strip_lws` from cinic.c: drop leading whitespace. -/
def strip_lws (s : List Char) : List Char :=
  s.dropWhile isspace

/-- `strip_tws` from cinic.c: drop trailing whitespace. -/
def strip_tws (s : List Char) : List Char :=
  (s.reverse.dropWhile isspace).reverse

/-- `strip_comment` from cinic.c: truncate at the first `#` or `;`. -/
def strip_comment (s : List Char) : List Char :=
  s.takeWhile (fun c => !is_comment c)

/-- The normalization the driver applies to a line before classifying it
(cinic.c, Cinic_parse: `strip_lws`, then `strip_comment`, then `strip_tws`). -/
def normalize (s : List Char) : List Char :=
  strip_tws (strip_comment (strip_lws s))

/-- `is_empty_line` from cinic.c. -/
def is_empty_line (line : List Char) : Bool :=
  strip_lws line = []

/-- `is_comment_line` from cinic.c: after leading whitespace the line starts
with a comment symbol. -/
def is_comment_line (line : List Char) : Bool :=
  match strip_lws line with
  | [] => false
  | c :: _ => is_comment c

/-- `is_section_line` from cinic.c.  Returns the extracted section name
instead of writing it through an out-parameter. -/
def is_section_line (line : List Char) : Option (List Char) :=
  match line with
  | [] => none
  | c :: rest =>
    if c ≠ '[' then none
    else
      -- ws between opening bracket and title is allowed
      let l1 := strip_lws rest
      match l1 with
      | [] => none
      | d :: _ =>
        if ¬ is_allowed d false then none
        else
          -- go to end of section name
          let name := l1.takeWhile (fun x => is_allowed x false)
          let l2 := l1.dropWhile (fun x => is_allowed x false)
          match l2 with
          | [] => none
          | e :: _ =>
            if ¬ isspace e ∧ e ≠ ']' then none
            else
              -- ws between title and closing bracket is allowed
              match strip_lws l2 with
              | [] => none
              | f :: rest3 =>
                if f ≠ ']' then none
                else if rest3 ≠ [] then none  -- line should be ending here
                else some name

/-- `is_record_line` from cinic.c.  Returns the extracted `(key, value)`. -/
def is_record_line (line : List Char) : Option (List Char × List Char) :=
  match line with
  | [] => none
  | c :: _ =>
    if ¬ is_allowed c false then none
    else
      -- go to the end of the key
      let key := line.takeWhile (fun x => is_allowed x false)
      let l1 := line.dropWhile (fun x => is_allowed x false)
      if l1 = [] then none
      else
        -- intervening whitespace between key, =, and value is allowed
        match strip_lws l1 with
        | [] => none
        | d :: rest2 =>
          if d ≠ '=' then none
          else
            let l3 := strip_lws rest2
            match l3 with
            | [] => none
            | e :: _ =>
              if ¬ is_allowed e false then none
              else
                -- go to the end of value (ws allowed inside the value)
                if l3.dropWhile (fun x => is_allowed x true) ≠ [] then none
                else some (key, l3)

/-- `is_list_head` from cinic.c: `key =` with nothing after the `=`. -/
def is_list_head (line : List Char) : Option (List Char) :=
  match line with
  | [] => none
  | c :: _ =>
    if ¬ is_allowed c false then none
    else
      let key := line.takeWhile (fun x => is_allowed x false)
      let l1 := line.dropWhile (fun x => is_allowed x false)
      if l1 = [] then none
      else
        match strip_lws l1 with
        | [] => none
        | d :: rest2 =>
          if d ≠ '=' then none
          else if rest2 ≠ [] then none  -- line should be ending here
          else some key

/-- `is_list_start` from cinic.c: the single opening-bracket character. -/
def is_list_start (line : List Char) : Bool :=
  line = ['[']

/-- `is_list_end` from cinic.c: the single closing-bracket character. -/
def is_list_end (line : List Char) : Bool :=
  line = [']']

/-- `is_list_entry` from cinic.c: a run of allowed characters optionally
followed (after whitespace) by one comma; `false` in the second component
means the comma was present (a non-final entry).  The C function `assert`s
that nothing follows the comma; on the tokens produced by `get_list_token`
the assertion always holds, and it is erased here (NDEBUG semantics). -/
def is_list_entry (line : List Char) : Option (List Char × Bool) :=
  match line with
  | [] => none
  | c :: _ =>
    if ¬ is_allowed c false then none
    else
      let v := line.takeWhile (fun x => is_allowed x false)
      match strip_lws (line.dropWhile (fun x => is_allowed x false)) with
      | [] => some (v, true)          -- no comma: final list item
      | d :: _ =>
        if d ≠ ',' then none
        else some (v, false)          -- comma: regular list item

/-- `get_list_token` from cinic.c.  Returns `none` when the (re-normalized)
cursor is empty, otherwise the current token together with the rest of the
line (`next`).  The C function returns `NULL` as next-pointer only via the
empty-cursor path, because each synthesized `end` always points at a
non-NUL character; a returned `next` may be the empty string.
Indices: `pos` is where the cursor stands after scanning a maximal run of
allowed characters and then skipping whitespace. -/
def get_list_token (line : List Char) : Option (List Char × List Char) :=
  let l := normalize line
  match l with
  | [] => none                                  -- "empty list"
  | c0 :: _ =>
    let scanned := (l.takeWhile (fun c => is_allowed c false)).length
    let pos := scanned + ((l.drop scanned).takeWhile isspace).length
    match (l.drop pos).head? with
    | some c =>
      -- equals sign, opening bracket, or comma
      if c = '=' ∨ c = '[' ∨ c = ',' then some (l.take (pos + 1), l.drop (pos + 1))
      -- list item
      else if is_allowed c false then some (l.take pos, l.drop pos)
      -- closing bracket
      else if c = ']' then
        if is_allowed c0 false then some (l.take pos, l.drop pos)
        else some (l.take (pos + 1), l.drop (pos + 1))
      -- unrecognized token; token is the whole rest, next points at NUL
      else some (l, [])
    | none => some (l, [])

/-- `enum cinic_list_state` from cinic.h. -/
inductive ListState
  | NOLIST | LIST_HEAD | LIST_OPEN | LIST_ONGOING | LIST_LAST
deriving DecidableEq, Repr

/-- `enum cinic_error` from cinic.h (without the sentinel). -/
inductive CinicError
  | CINIC_SUCCESS | CINIC_NOSECTION | CINIC_MALFORMED | CINIC_MALFORMED_LIST
  | CINIC_TOOLONG | CINIC_NESTED | CINIC_NOLIST | CINIC_EMPTY_LIST
  | CINIC_MISSING_COMMA | CINIC_REDUNDANT_COMMA | CINIC_REDUNDANT_BRACKET
  | CINIC_LIST_NOT_STARTED | CINIC_LIST_NOT_ENDED
deriving DecidableEq, Repr

/-- `Cinic_get_list_error` from cinic.c: validity of a list state
transition, depending on the `ALLOW_EMPTY_LISTS` flag. -/
def Cinic_get_list_error (allow_empty_lists : Bool) (prev next : ListState) :
    CinicError :=
  match prev with
  | .NOLIST =>
    if next = .LIST_HEAD then .CINIC_SUCCESS
    else if next = .NOLIST then .CINIC_REDUNDANT_BRACKET
    else .CINIC_NOLIST
  | .LIST_HEAD =>
    if next = .LIST_OPEN then .CINIC_SUCCESS
    else if next = .LIST_HEAD then .CINIC_MALFORMED_LIST
    else .CINIC_LIST_NOT_STARTED
  | .LIST_OPEN =>
    if next = .LIST_ONGOING ∨ next = .LIST_LAST then .CINIC_SUCCESS
    else if next = .LIST_HEAD then .CINIC_NESTED
    else if next = .LIST_OPEN then .CINIC_REDUNDANT_BRACKET
    else if next = .NOLIST ∧ allow_empty_lists = false then .CINIC_EMPTY_LIST
    else .CINIC_MALFORMED_LIST
  | .LIST_ONGOING =>
    if next = .LIST_ONGOING ∨ next = .LIST_LAST then .CINIC_SUCCESS
    else if next = .NOLIST then .CINIC_REDUNDANT_COMMA
    else .CINIC_LIST_NOT_ENDED
  | .LIST_LAST =>
    if next = .NOLIST then .CINIC_SUCCESS
    else if next = .LIST_HEAD then .CINIC_NESTED
    else if next = .LIST_OPEN then .CINIC_MALFORMED_LIST
    else .CINIC_MISSING_COMMA

/-- The process-wide configuration flags set by `Cinic_init`. -/
structure Config where
  allow_global_records : Bool
  allow_empty_lists : Bool
deriving DecidableEq, Repr

/-- One invocation of the consumer callback, with the arguments the driver
passes (`cb(ln, list, section, key, val)`). -/
structure CbCall where
  ln : Nat
  st : ListState
  sect : List Char
  key : List Char
  value : List Char
deriving DecidableEq, Repr

/-- The consumer callback (`config_cb` from cinic.h): returns `0` to
continue, nonzero to stop parsing. -/
abbrev Callback := Nat → ListState → List Char → List Char → List Char → Int

/-- The result of the callback on a recorded invocation. -/
def cbRes (cb : Callback) (c : CbCall) : Int :=
  cb c.ln c.st c.sect c.key c.value

/-- How `Cinic_parse` terminates: clean end of input (returns 0), an early
stop requested by the callback (returns that code), or a fatal parse error
(`cinic_exit_print`, which exits the process with a diagnostic naming the
error kind and the 1-based line number). -/
inductive ParseOutcome
  | ok
  | stopped (code : Int)
  | fatal (err : CinicError) (ln : Nat)
deriving DecidableEq, Repr

/-- Result of processing the list tokens of one line: either the line was
consumed and parsing continues with the updated list state and key/value
buffers, or the whole parse halts (fatal error or callback stop). -/
inductive LineResult
  | next (list : ListState) (key value : List Char)
  | halt (out : ParseOutcome)
deriving DecidableEq, Repr

/-- The list-token loop of `Cinic_parse` (cinic.c, the
`while ((next_token = get_list_token(...)))` loop).  `fuel` bounds the
number of iterations so the definition is structural; the driver supplies
`cur.length + 1`, which suffices because `get_list_token` consumes at
least one character of the cursor on every step (see
`get_list_token_progress`).  The classifier order (head, opening bracket,
entry, closing bracket, otherwise fatal `CINIC_MALFORMED`) and the
callback firing only after an entry are exactly those of the C loop. -/
def parse_list_tokens (ae : Bool) (cb : Callback) (ln : Nat) (sect : List Char) :
    Nat → ListState → List Char → List Char → List Char →
    LineResult × List CbCall
  | 0, list, key, value, _ => (.next list key value, [])
  | fuel + 1, list, key, value, cur =>
    match get_list_token cur with
    | none => (.next list key value, [])
    | some (tok, rest) =>
      match is_list_head tok with
      | some k =>
        let cerr := Cinic_get_list_error ae list .LIST_HEAD
        if cerr ≠ .CINIC_SUCCESS then (.halt (.fatal cerr ln), [])
        else parse_list_tokens ae cb ln sect fuel .LIST_HEAD k value rest
      | none =>
        if is_list_start tok then
          let cerr := Cinic_get_list_error ae list .LIST_OPEN
          if cerr ≠ .CINIC_SUCCESS then (.halt (.fatal cerr ln), [])
          else parse_list_tokens ae cb ln sect fuel .LIST_OPEN key value rest
        else
          match is_list_entry tok with
          | some (v, islast) =>
            let ns := if islast then ListState.LIST_LAST else .LIST_ONGOING
            let cerr := Cinic_get_list_error ae list ns
            if cerr ≠ .CINIC_SUCCESS then (.halt (.fatal cerr ln), [])
            else
              let rc := cb ln ns sect key v
              if rc ≠ 0 then (.halt (.stopped rc), [⟨ln, ns, sect, key, v⟩])
              else
                let r := parse_list_tokens ae cb ln sect fuel ns key v rest
                (r.1, ⟨ln, ns, sect, key, v⟩ :: r.2)
          | none =>
            if is_list_end tok then
              let cerr := Cinic_get_list_error ae list .NOLIST
              if cerr ≠ .CINIC_SUCCESS then (.halt (.fatal cerr ln), [])
              else parse_list_tokens ae cb ln sect fuel .NOLIST key value rest
            else (.halt (.fatal .CINIC_MALFORMED ln), [])

/-- `MAX_LINE_LEN` from cinic.h. -/
def MAX_LINE_LEN : Nat := 1024

/-- The per-line loop of `Cinic_parse`.  `lines` are the file's lines
without their trailing newline; `getline`'s byte count for a line is its
length plus one (the newline).  The parameters thread the driver's
persistent state: line counter, current section, list state, and the
`key`/`val` buffers (which survive across lines, as the static-size C
buffers do). -/
def parse_lines (cfg : Config) (cb : Callback) :
    Nat → List Char → ListState → List Char → List Char →
    List (List Char) → ParseOutcome × List CbCall
  | _, _, _, _, _, [] => (.ok, [])
  | ln, sect, list, key, value, line :: restLines =>
    let ln := ln + 1
    -- line too long
    if MAX_LINE_LEN < line.length + 1 then (.fatal .CINIC_TOOLONG ln, [])
    else if is_empty_line line || is_comment_line line then
      parse_lines cfg cb ln sect list key value restLines
    else
      let buff := normalize line
      -- section title line
      match is_section_line buff with
      | some name =>
        if list ≠ .NOLIST then (.fatal .CINIC_NESTED ln, [])
        else parse_lines cfg cb ln name list key value restLines
      | none =>
        -- key-value line
        match is_record_line buff with
        | some (k, v) =>
          if sect = [] ∧ cfg.allow_global_records = false then
            (.fatal .CINIC_NOSECTION ln, [])
          else if list ≠ .NOLIST then (.fatal .CINIC_NESTED ln, [])
          else
            let rc := cb ln list sect k v
            if rc ≠ 0 then (.stopped rc, [⟨ln, list, sect, k, v⟩])
            else
              let r := parse_lines cfg cb ln sect list k v restLines
              (r.1, ⟨ln, list, sect, k, v⟩ :: r.2)
        | none =>
          -- else, try list
          match parse_list_tokens cfg.allow_empty_lists cb ln sect
              (buff.length + 1) list key value buff with
          | (.next list2 key2 value2, tr) =>
            let r := parse_lines cfg cb ln sect list2 key2 value2 restLines
            (r.1, tr ++ r.2)
          | (.halt out, tr) => (out, tr)

/-- `Cinic_parse` from cinic.c, over an already-read list of lines, also
returning the sequence of callback invocations it performed. -/
def Cinic_parse (cfg : Config) (cb : Callback) (lines : List (List Char)) :
    ParseOutcome × List CbCall :=
  parse_lines cfg cb 0 [] .NOLIST [] [] lines

/-- `Cinic_init` from cinic.c: sets the two flags and the namespace
delimiter; exits with a configuration error (modelled by `none`) iff
`strlen(section_delim) > 1`. -/
def Cinic_init (allow_globals allow_empty_lists : Bool)
    (section_delim : List Char) : Option (Config × List Char) :=
  if section_delim.length > 1 then none
  else some (⟨allow_globals, allow_empty_lists⟩, section_delim)

/-! ### Callback-trace invariants of the driver -/

/-- Every recorded invocation returned 0: the callback never asked to stop. -/
def allZero (cb : Callback) (tr : List CbCall) : Prop :=
  ∀ c ∈ tr, cbRes cb c = 0

/-- The trace ends with the single invocation that returned the nonzero
code `r`; every earlier invocation returned 0. -/
def StopShape (cb : Callback) (tr : List CbCall) (r : Int) : Prop :=
  ∃ pre c, tr = pre ++ [c] ∧ (∀ x ∈ pre, cbRes cb x = 0) ∧ cbRes cb c = r ∧ r ≠ 0

/-- The invariant tying a line-loop result to its trace. -/
def TraceOK (cb : Callback) (res : LineResult × List CbCall) : Prop :=
  match res with
  | (.halt (.stopped r), tr) => StopShape cb tr r
  | (_, tr) => allZero cb tr

/-- The invariant tying a whole-parse result to its trace. -/
def TraceOK2 (cb : Callback) (res : ParseOutcome × List CbCall) : Prop :=
  match res with
  | (.stopped r, tr) => StopShape cb tr r
  | (_, tr) => allZero cb tr

/-! ### Spec-side definitions (from the spec's words, for the
refinement-style claims) -/

/-- The spec's description of a section-header line (§4.2): `[`, optional
whitespace, a run of one or more allowed characters (no embedded
whitespace), optional whitespace, `]`, and nothing after the closing
bracket; the section name is that run. -/
def SpecSectionHeader (line name : List Char) : Prop :=
  ∃ w1 w2 : List Char,
    line = '[' :: (w1 ++ (name ++ (w2 ++ [']']))) ∧
    name ≠ [] ∧ (∀ c ∈ name, is_allowed c false = true) ∧
    (∀ c ∈ w1, isspace c = true) ∧ (∀ c ∈ w2, isspace c = true)

/-- The spec's description of a `key = value` record line (§4.2): a
nonempty run of allowed characters without whitespace (the key), optional
whitespace, a single `=`, optional whitespace, then a nonempty value whose
first character is an allowed non-whitespace character and in which
embedded whitespace is permitted but no `=` or disallowed character
occurs, up to the end of the line. -/
def SpecRecord (line key value : List Char) : Prop :=
  ∃ w1 w2 : List Char,
    line = key ++ (w1 ++ ('=' :: (w2 ++ value))) ∧
    key ≠ [] ∧ (∀ c ∈ key, is_allowed c false = true) ∧
    (∀ c ∈ w1, isspace c = true) ∧ (∀ c ∈ w2, isspace c = true) ∧
    (∃ vh vt, value = vh :: vt ∧ is_allowed vh false = true) ∧
    (∀ c ∈ value, is_allowed c true = true)

/-- The transition table of spec §4.4: exactly the pairs listed as legal. -/
def spec_legal_transition (prev next : ListState) : Bool :=
  match prev, next with
  | .NOLIST, .LIST_HEAD => true
  | .LIST_HEAD, .LIST_OPEN => true
  | .LIST_OPEN, .LIST_ONGOING => true
  | .LIST_OPEN, .LIST_LAST => true
  | .LIST_ONGOING, .LIST_ONGOING => true
  | .LIST_ONGOING, .LIST_LAST => true
  | .LIST_LAST, .NOLIST => true
  | _, _ => false


/-! ### Character-class facts -/

lemma isspace_of_mem_cases {c : Char} (h : isspace c = true) :
    c = ' ' ∨ c = '\t' ∨ c = '\n' ∨ c = '\x0b' ∨ c = '\x0c' ∨ c = '\r' := by
  simpa [isspace, decide_eq_true_eq, or_assoc] using h

/-- A character legal in a key/section name (no whitespace allowed) is not
whitespace. -/
lemma allowed_not_space {c : Char} (h : is_allowed c false = true) :
    isspace c = false := by
  cases hs : isspace c with
  | false => rfl
  | true =>
    rcases isspace_of_mem_cases hs with rfl | rfl | rfl | rfl | rfl | rfl <;>
      exact absurd h (by decide)

lemma space_not_allowed {c : Char} (h : isspace c = true) :
    is_allowed c false = false := by
  cases ha : is_allowed c false with
  | false => rfl
  | true => rw [allowed_not_space ha] at h; exact absurd h (by decide)

/-! ### Length facts about the stripping functions -/

lemma strip_tws_eq_rdropWhile (s : List Char) :
    strip_tws s = s.rdropWhile isspace := rfl

lemma length_strip_lws_le (s : List Char) :
    (strip_lws s).length ≤ s.length := by
  have h := List.dropWhile_suffix (l := s) isspace
  exact h.length_le

lemma length_strip_comment_le (s : List Char) :
    (strip_comment s).length ≤ s.length := by
  have h := List.takeWhile_prefix (l := s) (fun c => !is_comment c)
  exact h.length_le

lemma length_strip_tws_le (s : List Char) :
    (strip_tws s).length ≤ s.length := by
  rw [strip_tws_eq_rdropWhile]
  have h := List.rdropWhile_prefix isspace s
  exact h.length_le

lemma length_normalize_le (s : List Char) :
    (normalize s).length ≤ s.length :=
  le_trans (length_strip_tws_le _)
    (le_trans (length_strip_comment_le _) (length_strip_lws_le _))

/-- The tokenizer makes strict progress: whenever `get_list_token` yields a
token, the returned continuation is strictly shorter than its input.  This
is what terminates the driver's per-line token loop. -/
lemma get_list_token_progress {line tok rest : List Char}
    (h : get_list_token line = some (tok, rest)) :
    rest.length < line.length := by
  unfold get_list_token at h
  rcases hl : normalize line with _ | ⟨c0, l'⟩ <;> rw [hl] at h
  · exact absurd h (by simp)
  · have hlen : (normalize line).length ≤ line.length := length_normalize_le line
    rw [hl] at hlen
    simp only at h
    set l : List Char := c0 :: l' with hldef
    have hl1 : 1 ≤ l.length := by rw [hldef]; simp
    set scanned := (l.takeWhile (fun c => is_allowed c false)).length with hscan
    set pos := scanned + ((l.drop scanned).takeWhile isspace).length with hposdef
    rcases hhead : (l.drop pos).head? with _ | c <;> rw [hhead] at h <;>
        simp only at h
    · simp only [Option.some.injEq, Prod.mk.injEq] at h
      rw [← h.2]
      simp only [List.length_nil]
      omega
    · have hposlt : pos < l.length := by
        by_contra hge
        push_neg at hge
        rw [List.drop_eq_nil_of_le hge] at hhead
        exact absurd hhead (by simp)
      split_ifs at h with h1 h2 h3 h4 <;>
          simp only [Option.some.injEq, Prod.mk.injEq] at h <;> rw [← h.2]
      · -- structural char (=, [, comma): rest = l.drop (pos + 1)
        rw [List.length_drop]
        omega
      · -- a further list item follows whitespace: rest = l.drop pos, pos ≥ 1
        have hpos1 : 1 ≤ pos := by
          by_contra hlt
          push_neg at hlt
          have hp0 : pos = 0 := by omega
          have hs0 : scanned = 0 := by omega
          have hcc : c = c0 := by
            have hh := hhead
            rw [hp0, List.drop_zero, hldef] at hh
            simpa using hh.symm
          cases hca : is_allowed c0 false with
          | true =>
            have : l.takeWhile (fun c => is_allowed c false) =
                c0 :: l'.takeWhile (fun c => is_allowed c false) := by
              rw [hldef, List.takeWhile_cons, hca]
              simp
            rw [hscan, this] at hs0
            simp at hs0
          | false =>
            rw [hcc, hca] at h2
            exact absurd h2 (by simp)
        rw [List.length_drop]
        omega
      · -- closing bracket preceded by a list item: rest = l.drop pos, pos ≥ 1
        have hpos1 : 1 ≤ scanned := by
          have : l.takeWhile (fun c => is_allowed c false) =
              c0 :: l'.takeWhile (fun c => is_allowed c false) := by
            rw [hldef, List.takeWhile_cons, h4]
            simp
          rw [hscan, this]
          simp
        rw [List.length_drop]
        omega
      · -- closing bracket without a preceding item: rest = l.drop (pos + 1)
        rw [List.length_drop]
        omega
      · -- unrecognized token: rest = [], token is the whole cursor
        simp only [List.length_nil]
        omega

/-! ### Facts about normalization -/

lemma strip_comment_no_comment {s : List Char} {c : Char}
    (h : c ∈ strip_comment s) : is_comment c = false := by
  have hp := List.mem_takeWhile_imp h
  simpa using hp

lemma strip_comment_eq_self {s : List Char}
    (h : ∀ c ∈ s, is_comment c = false) : strip_comment s = s :=
  List.takeWhile_eq_self_iff.mpr (fun x hx => by simp [h x hx])

lemma strip_tws_prefix_of (s : List Char) : strip_tws s <+: s := by
  rw [strip_tws_eq_rdropWhile]
  exact List.rdropWhile_prefix isspace s

lemma strip_tws_idem (s : List Char) :
    strip_tws (strip_tws s) = strip_tws s := by
  rw [strip_tws_eq_rdropWhile, strip_tws_eq_rdropWhile]
  exact List.rdropWhile_idempotent isspace s

lemma strip_lws_head_not_space {s : List Char} {c : Char} {t : List Char}
    (h : strip_lws s = c :: t) : isspace c = false := by
  have hq := List.head?_dropWhile_not isspace s
  rw [show s.dropWhile isspace = strip_lws s from rfl, h] at hq
  simpa using hq

lemma strip_lws_cons_of_not_space {c : Char} {t : List Char}
    (h : isspace c = false) : strip_lws (c :: t) = c :: t := by
  simp [strip_lws, List.dropWhile_cons, h]

/-- Normalization is idempotent (spec §4.1 and §8): the normalized line has
no leading whitespace, no comment characters, and no trailing whitespace,
so each stripping stage fixes it. -/
lemma normalize_idem (s : List Char) :
    normalize (normalize s) = normalize s := by
  unfold normalize
  set m := strip_comment (strip_lws s) with hm
  set n := strip_tws m with hn
  have hpre : n <+: m := strip_tws_prefix_of m
  have h1 : strip_lws n = n := by
    cases hcase : n with
    | nil => rfl
    | cons c t =>
      obtain ⟨u, hu⟩ := hpre
      rw [hcase] at hu
      have hpre2 : m <+: strip_lws s := List.takeWhile_prefix _
      obtain ⟨u2, hu2⟩ := hpre2
      have hconc : strip_lws s = c :: (t ++ u ++ u2) := by
        rw [← hu2, ← hu]
        simp
      exact strip_lws_cons_of_not_space (strip_lws_head_not_space hconc)
  have h2 : strip_comment n = n :=
    strip_comment_eq_self (fun c hc =>
      strip_comment_no_comment (s := strip_lws s) (hpre.subset hc))
  have h3 : strip_tws n = n := by rw [hn]; exact strip_tws_idem m
  rw [h1, h2, h3]

/-- Normalizing an all-whitespace (or empty) line yields the empty string. -/
lemma normalize_all_space {s : List Char}
    (h : ∀ c ∈ s, isspace c = true) : normalize s = [] := by
  have h1 : strip_lws s = [] := List.dropWhile_eq_nil_iff.mpr h
  unfold normalize
  rw [h1]
  rfl

lemma allZero_nil (cb : Callback) : allZero cb [] := by
  intro c hc
  exact absurd hc (by simp)

lemma allZero_cons {cb : Callback} {x : CbCall} {tr : List CbCall}
    (h0 : cbRes cb x = 0) (h : allZero cb tr) : allZero cb (x :: tr) := by
  intro c hc
  rcases List.mem_cons.mp hc with rfl | hc
  · exact h0
  · exact h c hc

lemma StopShape_cons {cb : Callback} {x : CbCall} {tr : List CbCall} {r : Int}
    (h0 : cbRes cb x = 0) (h : StopShape cb tr r) :
    StopShape cb (x :: tr) r := by
  obtain ⟨pre, c, he, hz, hc, hr⟩ := h
  exact ⟨x :: pre, c, by rw [he]; rfl,
    fun y hy => by
      rcases List.mem_cons.mp hy with rfl | hy
      · exact h0
      · exact hz y hy,
    hc, hr⟩

lemma StopShape_append {cb : Callback} {tr1 tr2 : List CbCall} {r : Int}
    (h1 : allZero cb tr1) (h : StopShape cb tr2 r) :
    StopShape cb (tr1 ++ tr2) r := by
  obtain ⟨pre, c, he, hz, hc, hr⟩ := h
  exact ⟨tr1 ++ pre, c, by rw [he, List.append_assoc],
    fun y hy => by
      rcases List.mem_append.mp hy with hy | hy
      · exact h1 y hy
      · exact hz y hy,
    hc, hr⟩

/-- Trace invariant for the per-line token loop: either every callback
invocation it made returned 0, or it halted with `stopped r` and the trace
ends with the single invocation that returned `r ≠ 0`. -/
lemma parse_list_tokens_trace (ae : Bool) (cb : Callback) (ln : Nat)
    (sect : List Char) :
    ∀ (fuel : Nat) (list : ListState) (key value cur : List Char),
      TraceOK cb (parse_list_tokens ae cb ln sect fuel list key value cur) := by
  intro fuel
  induction fuel with
  | zero =>
    intro list key value cur
    simp only [parse_list_tokens, TraceOK]
    exact allZero_nil cb
  | succ fuel ih =>
    intro list key value cur
    rw [parse_list_tokens]
    rcases hgt : get_list_token cur with _ | ⟨tok, rest⟩
    · exact allZero_nil cb
    · dsimp only
      rcases hh : is_list_head tok with _ | k
      · dsimp only
        by_cases hs : is_list_start tok = true
        · rw [if_pos hs]
          by_cases he : Cinic_get_list_error ae list .LIST_OPEN ≠ .CINIC_SUCCESS
          · rw [if_pos he]
            exact allZero_nil cb
          · rw [if_neg he]
            exact ih .LIST_OPEN key value rest
        · rw [if_neg hs]
          rcases hent : is_list_entry tok with _ | ⟨v, islast⟩
          · dsimp only
            by_cases hend : is_list_end tok = true
            · rw [if_pos hend]
              by_cases he : Cinic_get_list_error ae list .NOLIST ≠ .CINIC_SUCCESS
              · rw [if_pos he]
                exact allZero_nil cb
              · rw [if_neg he]
                exact ih .NOLIST key value rest
            · rw [if_neg hend]
              exact allZero_nil cb
          · dsimp only
            by_cases he : Cinic_get_list_error ae list
                (if islast then ListState.LIST_LAST else .LIST_ONGOING) ≠
                .CINIC_SUCCESS
            · rw [if_pos he]
              exact allZero_nil cb
            · rw [if_neg he]
              by_cases hrc : cb ln
                  (if islast then ListState.LIST_LAST else .LIST_ONGOING)
                  sect key v ≠ 0
              · rw [if_pos hrc]
                exact ⟨[], _, rfl, fun y hy => absurd hy (by simp), rfl, hrc⟩
              · rw [if_neg hrc]
                push_neg at hrc
                have ihx := ih
                  (if islast then ListState.LIST_LAST else .LIST_ONGOING)
                  key v rest
                rcases hres : parse_list_tokens ae cb ln sect fuel
                    (if islast then ListState.LIST_LAST else .LIST_ONGOING)
                    key v rest with ⟨res, tr⟩
                rw [hres] at ihx
                have h0 : cbRes cb ⟨ln,
                    if islast then ListState.LIST_LAST else .LIST_ONGOING,
                    sect, key, v⟩ = 0 := hrc
                rcases res with ⟨l2, k2, v2⟩ | out
                · exact allZero_cons h0 ihx
                · rcases out with _ | r | ⟨e, n⟩
                  · exact allZero_cons h0 ihx
                  · exact StopShape_cons h0 ihx
                  · exact allZero_cons h0 ihx
      · dsimp only
        by_cases he : Cinic_get_list_error ae list .LIST_HEAD ≠ .CINIC_SUCCESS
        · rw [if_pos he]
          exact allZero_nil cb
        · rw [if_neg he]
          exact ih .LIST_HEAD k value rest

lemma allZero_append {cb : Callback} {tr1 tr2 : List CbCall}
    (h1 : allZero cb tr1) (h2 : allZero cb tr2) : allZero cb (tr1 ++ tr2) := by
  intro c hc
  rcases List.mem_append.mp hc with hc | hc
  · exact h1 c hc
  · exact h2 c hc

/-- Trace invariant for the whole driver: either every callback invocation
returned 0, or the parse stopped with the code of the last invocation. -/
lemma parse_lines_trace (cfg : Config) (cb : Callback) :
    ∀ (lines : List (List Char)) (ln : Nat) (sect : List Char)
      (list : ListState) (key value : List Char),
      TraceOK2 cb (parse_lines cfg cb ln sect list key value lines) := by
  intro lines
  induction lines with
  | nil =>
    intro ln sect list key value
    exact allZero_nil cb
  | cons line restLines ih =>
    intro ln sect list key value
    rw [parse_lines]
    dsimp only
    by_cases hlong : MAX_LINE_LEN < line.length + 1
    · rw [if_pos hlong]
      exact allZero_nil cb
    · rw [if_neg hlong]
      by_cases hskip : (is_empty_line line || is_comment_line line) = true
      · rw [if_pos hskip]
        exact ih (ln + 1) sect list key value
      · rw [if_neg hskip]
        rcases hsec : is_section_line (normalize line) with _ | name
        · dsimp only
          rcases hrec : is_record_line (normalize line) with _ | ⟨k, v⟩
          · dsimp only
            have plt := parse_list_tokens_trace cfg.allow_empty_lists cb
              (ln + 1) sect ((normalize line).length + 1) list key value
              (normalize line)
            rcases hres : parse_list_tokens cfg.allow_empty_lists cb (ln + 1)
                sect ((normalize line).length + 1) list key value
                (normalize line) with ⟨res, tr⟩
            rw [hres] at plt
            rcases res with ⟨l2, k2, v2⟩ | out
            · have ihx := ih (ln + 1) sect l2 k2 v2
              dsimp only
              rcases hR : parse_lines cfg cb (ln + 1) sect l2 k2 v2 restLines
                with ⟨out2, tr2⟩
              rw [hR] at ihx
              rcases out2 with _ | r | ⟨e, n⟩
              · exact allZero_append plt ihx
              · exact StopShape_append plt ihx
              · exact allZero_append plt ihx
            · rcases out with _ | r | ⟨e, n⟩
              · exact plt
              · exact plt
              · exact plt
          · dsimp only
            by_cases hns : sect = [] ∧ cfg.allow_global_records = false
            · rw [if_pos hns]
              exact allZero_nil cb
            · rw [if_neg hns]
              by_cases hl : list ≠ .NOLIST
              · rw [if_pos hl]
                exact allZero_nil cb
              · rw [if_neg hl]
                by_cases hrc : cb (ln + 1) list sect k v ≠ 0
                · rw [if_pos hrc]
                  exact ⟨[], _, rfl, fun y hy => absurd hy (by simp), rfl, hrc⟩
                · rw [if_neg hrc]
                  push_neg at hrc
                  have ihx := ih (ln + 1) sect list k v
                  rcases hR : parse_lines cfg cb (ln + 1) sect list k v
                    restLines with ⟨out2, tr2⟩
                  rw [hR] at ihx
                  have h0 : cbRes cb ⟨ln + 1, list, sect, k, v⟩ = 0 := hrc
                  rcases out2 with _ | r | ⟨e, n⟩
                  · exact allZero_cons h0 ihx
                  · exact StopShape_cons h0 ihx
                  · exact allZero_cons h0 ihx
        · dsimp only
          by_cases hl : list ≠ .NOLIST
          · rw [if_pos hl]
            exact allZero_nil cb
          · rw [if_neg hl]
            exact ih (ln + 1) name list key value

/-! ### Generic scanning-run lemmas -/

lemma takeWhile_append_all {p : Char → Bool} {a : List Char} (b : List Char)
    (h : ∀ c ∈ a, p c = true) : (a ++ b).takeWhile p = a ++ b.takeWhile p := by
  induction a with
  | nil => rfl
  | cons x xs ihx =>
    have hx : p x = true := h x (List.mem_cons_self x xs)
    simp [List.takeWhile_cons, hx,
      ihx (fun c hc => h c (List.mem_cons_of_mem x hc))]

lemma dropWhile_append_all {p : Char → Bool} {a : List Char} (b : List Char)
    (h : ∀ c ∈ a, p c = true) : (a ++ b).dropWhile p = b.dropWhile p := by
  induction a with
  | nil => rfl
  | cons x xs ihx =>
    have hx : p x = true := h x (List.mem_cons_self x xs)
    simp [List.dropWhile_cons, hx,
      ihx (fun c hc => h c (List.mem_cons_of_mem x hc))]

lemma takeWhile_nil_of_head {p : Char → Bool} {l : List Char}
    (h : ∀ c t, l = c :: t → p c = false) : l.takeWhile p = [] := by
  rcases l with _ | ⟨c, t⟩
  · rfl
  · simp [List.takeWhile_cons, h c t rfl]

lemma dropWhile_self_of_head {p : Char → Bool} {l : List Char}
    (h : ∀ c t, l = c :: t → p c = false) : l.dropWhile p = l := by
  rcases l with _ | ⟨c, t⟩
  · rfl
  · simp [List.dropWhile_cons, h c t rfl]

/-! ### Characterization of the section-header classifier -/

lemma spec_of_is_section_line {line name : List Char}
    (h : is_section_line line = some name) : SpecSectionHeader line name := by
  rcases line with _ | ⟨c, rest⟩
  · exact absurd h (by simp [is_section_line])
  · unfold is_section_line at h
    dsimp only at h
    by_cases hc : c ≠ '['
    · rw [if_pos hc] at h
      exact absurd h (by simp)
    · rw [if_neg hc] at h
      push_neg at hc
      subst hc
      rcases hl1 : strip_lws rest with _ | ⟨d, l1t⟩
      · rw [hl1] at h
        exact absurd h (by simp)
      · rw [hl1] at h
        dsimp only at h
        by_cases hd : is_allowed d false = true
        · rw [if_neg (not_not_intro hd)] at h
          rcases hl2 : (d :: l1t).dropWhile (fun x => is_allowed x false)
            with _ | ⟨e, l2t⟩
          · rw [hl2] at h
            exact absurd h (by simp)
          · rw [hl2] at h
            dsimp only at h
            by_cases hespace : ¬ isspace e = true ∧ e ≠ ']'
            · rw [if_pos hespace] at h
              exact absurd h (by simp)
            · rw [if_neg hespace] at h
              rcases hl3 : strip_lws (e :: l2t) with _ | ⟨f, rest3⟩
              · rw [hl3] at h
                exact absurd h (by simp)
              · rw [hl3] at h
                dsimp only at h
                by_cases hf : f ≠ ']'
                · rw [if_pos hf] at h
                  exact absurd h (by simp)
                · rw [if_neg hf] at h
                  push_neg at hf
                  subst hf
                  by_cases hr3 : rest3 ≠ []
                  · rw [if_pos hr3] at h
                    exact absurd h (by simp)
                  · rw [if_neg hr3] at h
                    push_neg at hr3
                    subst hr3
                    have hname : name =
                        (d :: l1t).takeWhile (fun x => is_allowed x false) := by
                      simpa using h.symm
                    refine ⟨rest.takeWhile isspace, (e :: l2t).takeWhile isspace,
                      ?_, ?_, ?_, ?_, ?_⟩
                    · have e1 : rest.takeWhile isspace ++ (d :: l1t) = rest := by
                        have hsplit := List.takeWhile_append_dropWhile
                          (p := isspace) (l := rest)
                        rw [show rest.dropWhile isspace = strip_lws rest from rfl,
                          hl1] at hsplit
                        exact hsplit
                      have e2 : name ++
                          (d :: l1t).dropWhile (fun x => is_allowed x false) =
                          d :: l1t := by
                        rw [hname]
                        exact List.takeWhile_append_dropWhile _ _
                      have e3 : (e :: l2t).takeWhile isspace ++ [']'] =
                          e :: l2t := by
                        have hsplit := List.takeWhile_append_dropWhile
                          (p := isspace) (l := e :: l2t)
                        rw [show (e :: l2t).dropWhile isspace =
                            strip_lws (e :: l2t) from rfl, hl3] at hsplit
                        exact hsplit
                      rw [e3, ← hl2, e2, e1]
                    · rw [hname]
                      simp [List.takeWhile_cons, hd]
                    · intro y hy
                      rw [hname] at hy
                      have := List.mem_takeWhile_imp hy
                      simpa using this
                    · intro y hy
                      exact List.mem_takeWhile_imp hy
                    · intro y hy
                      exact List.mem_takeWhile_imp hy
        · rw [if_pos hd] at h
          exact absurd h (by simp)

lemma is_section_line_of_spec {line name : List Char}
    (h : SpecSectionHeader line name) : is_section_line line = some name := by
  obtain ⟨w1, w2, hline, hne, hnm, hw1, hw2⟩ := h
  rcases name with _ | ⟨nh, nt⟩
  · exact absurd rfl hne
  · subst hline
    have hnh : is_allowed nh false = true := hnm nh (by simp)
    have hnhs : isspace nh = false := allowed_not_space hnh
    have hbrhead : ∀ c t, w2 ++ [']'] = c :: t → is_allowed c false = false := by
      intro c t hct
      rcases w2 with _ | ⟨wh, wt⟩
      · simp only [List.nil_append, List.cons.injEq] at hct
        rw [← hct.1]
        decide
      · simp only [List.cons_append, List.cons.injEq] at hct
        rw [← hct.1]
        exact space_not_allowed (hw2 wh (by simp))
    have h1 : strip_lws (w1 ++ ((nh :: nt) ++ (w2 ++ [']']))) =
        nh :: (nt ++ (w2 ++ [']'])) := by
      show (w1 ++ ((nh :: nt) ++ (w2 ++ [']']))).dropWhile isspace = _
      rw [dropWhile_append_all _ hw1]
      simp [List.dropWhile_cons, hnhs]
    have h2 : (nh :: (nt ++ (w2 ++ [']']))).takeWhile
        (fun x => is_allowed x false) = nh :: nt := by
      rw [← List.cons_append, takeWhile_append_all _ hnm,
        takeWhile_nil_of_head hbrhead]
      simp
    have h3 : (nh :: (nt ++ (w2 ++ [']']))).dropWhile
        (fun x => is_allowed x false) = w2 ++ [']'] := by
      rw [← List.cons_append, dropWhile_append_all _ hnm,
        dropWhile_self_of_head hbrhead]
    have h4 : strip_lws (w2 ++ [']']) = [']'] := by
      show (w2 ++ [']']).dropWhile isspace = [']']
      rw [dropWhile_append_all _ hw2]
      decide
    unfold is_section_line
    dsimp only
    rw [if_neg (by simp : ¬('[' ≠ '['))]
    rw [h1]
    dsimp only
    rw [if_neg (not_not_intro hnh), h2, h3, h4]
    have he : isspace ((w2 ++ [']']).headI) = true ∨ (w2 ++ [']']).headI = ']' := by
      rcases w2 with _ | ⟨wh, wt⟩
      · right; rfl
      · left; exact hw2 wh (by simp)
    rcases hw2e : w2 ++ [']'] with _ | ⟨e, l2t⟩
    · exact absurd hw2e (by simp)
    · rw [hw2e] at he
      try dsimp only
      rw [if_neg (by
        rintro ⟨hs, hne2⟩
        rcases he with he | he
        · exact hs he
        · exact hne2 he)]
      try dsimp only
      rw [if_neg (by simp : ¬(']' ≠ ']')), if_neg (by simp :
        ¬(([] : List Char) ≠ []))]

/-! ### Characterization of the record classifier -/

lemma spec_of_is_record_line {line key value : List Char}
    (h : is_record_line line = some (key, value)) : SpecRecord line key value := by
  rcases line with _ | ⟨c, lt⟩
  · exact absurd h (by simp [is_record_line])
  · unfold is_record_line at h
    dsimp only at h
    by_cases hc : is_allowed c false = true
    · rw [if_neg (not_not_intro hc)] at h
      by_cases hl1 : (c :: lt).dropWhile (fun x => is_allowed x false) = []
      · rw [if_pos hl1] at h
        exact absurd h (by simp)
      · rw [if_neg hl1] at h
        rcases hsl : strip_lws ((c :: lt).dropWhile (fun x => is_allowed x false))
          with _ | ⟨d, rest2⟩
        · rw [hsl] at h
          exact absurd h (by simp)
        · rw [hsl] at h
          dsimp only at h
          by_cases hd : d ≠ '='
          · rw [if_pos hd] at h
            exact absurd h (by simp)
          · rw [if_neg hd] at h
            push_neg at hd
            subst hd
            rcases hl3 : strip_lws rest2 with _ | ⟨e, l3t⟩
            · rw [hl3] at h
              exact absurd h (by simp)
            · rw [hl3] at h
              dsimp only at h
              by_cases hee : is_allowed e false = true
              · rw [if_neg (not_not_intro hee)] at h
                by_cases hdw : (e :: l3t).dropWhile (fun x => is_allowed x true)
                    ≠ []
                · rw [if_pos hdw] at h
                  exact absurd h (by simp)
                · rw [if_neg hdw] at h
                  push_neg at hdw
                  simp only [Option.some.injEq, Prod.mk.injEq] at h
                  obtain ⟨hkey, hval⟩ := h
                  refine ⟨((c :: lt).dropWhile
                      (fun x => is_allowed x false)).takeWhile isspace,
                    rest2.takeWhile isspace, ?_, ?_, ?_, ?_, ?_, ?_, ?_⟩
                  · have e1 : (c :: lt).takeWhile (fun x => is_allowed x false)
                        ++ (c :: lt).dropWhile (fun x => is_allowed x false) =
                        c :: lt :=
                      List.takeWhile_append_dropWhile _ _
                    have e2 : ((c :: lt).dropWhile
                        (fun x => is_allowed x false)).takeWhile isspace ++
                        ('=' :: rest2) =
                        (c :: lt).dropWhile (fun x => is_allowed x false) := by
                      have hsplit := List.takeWhile_append_dropWhile
                        (p := isspace)
                        (l := (c :: lt).dropWhile (fun x => is_allowed x false))
                      rw [show ((c :: lt).dropWhile
                          (fun x => is_allowed x false)).dropWhile isspace =
                          strip_lws ((c :: lt).dropWhile
                          (fun x => is_allowed x false)) from rfl, hsl]
                        at hsplit
                      exact hsplit
                    have e3 : rest2.takeWhile isspace ++ (e :: l3t) = rest2 := by
                      have hsplit := List.takeWhile_append_dropWhile
                        (p := isspace) (l := rest2)
                      rw [show rest2.dropWhile isspace = strip_lws rest2
                        from rfl, hl3] at hsplit
                      exact hsplit
                    rw [← hval, ← hkey, e3, e2, e1]
                  · rw [← hkey]
                    simp [List.takeWhile_cons, hc]
                  · intro y hy
                    rw [← hkey] at hy
                    have := List.mem_takeWhile_imp hy
                    simpa using this
                  · intro y hy
                    exact List.mem_takeWhile_imp hy
                  · intro y hy
                    exact List.mem_takeWhile_imp hy
                  · exact ⟨e, l3t, hval.symm, hee⟩
                  · intro y hy
                    rw [← hval] at hy
                    have hnil := List.dropWhile_eq_nil_iff.mp hdw
                    simpa using hnil y hy
              · rw [if_pos hee] at h
                exact absurd h (by simp)
    · rw [if_pos hc] at h
      exact absurd h (by simp)

lemma is_record_line_of_spec {line key value : List Char}
    (h : SpecRecord line key value) : is_record_line line = some (key, value) := by
  obtain ⟨w1, w2, hline, hne, hkm, hw1, hw2, ⟨vh, vt, hval, hvh⟩, hvm⟩ := h
  rcases key with _ | ⟨kh, kt⟩
  · exact absurd rfl hne
  · subst hline
    subst hval
    have hkh : is_allowed kh false = true := hkm kh (by simp)
    have hvhs : isspace vh = false := allowed_not_space hvh
    have heqhead : ∀ c t, w1 ++ ('=' :: (w2 ++ (vh :: vt))) = c :: t →
        is_allowed c false = false := by
      intro c t hct
      rcases w1 with _ | ⟨wh, wt⟩
      · simp only [List.nil_append, List.cons.injEq] at hct
        rw [← hct.1]
        decide
      · simp only [List.cons_append, List.cons.injEq] at hct
        rw [← hct.1]
        exact space_not_allowed (hw1 wh (by simp))
    have h1 : (kh :: (kt ++ (w1 ++ ('=' :: (w2 ++ (vh :: vt)))))).takeWhile
        (fun x => is_allowed x false) = kh :: kt := by
      rw [← List.cons_append, takeWhile_append_all _ hkm,
        takeWhile_nil_of_head heqhead]
      simp
    have h2 : (kh :: (kt ++ (w1 ++ ('=' :: (w2 ++ (vh :: vt)))))).dropWhile
        (fun x => is_allowed x false) = w1 ++ ('=' :: (w2 ++ (vh :: vt))) := by
      rw [← List.cons_append, dropWhile_append_all _ hkm,
        dropWhile_self_of_head heqhead]
    have h3 : strip_lws (w1 ++ ('=' :: (w2 ++ (vh :: vt)))) =
        '=' :: (w2 ++ (vh :: vt)) := by
      show (w1 ++ ('=' :: (w2 ++ (vh :: vt)))).dropWhile isspace = _
      rw [dropWhile_append_all _ hw1, List.dropWhile_cons,
        if_neg (by decide : ¬(isspace '=' = true))]
    have h4 : strip_lws (w2 ++ (vh :: vt)) = vh :: vt := by
      show (w2 ++ (vh :: vt)).dropWhile isspace = _
      rw [dropWhile_append_all _ hw2]
      simp [List.dropWhile_cons, hvhs]
    have h5 : (vh :: vt).dropWhile (fun x => is_allowed x true) = [] :=
      List.dropWhile_eq_nil_iff.mpr (fun x hx => by simp [hvm x hx])
    rw [List.cons_append]
    unfold is_record_line
    dsimp only
    rw [if_neg (not_not_intro hkh), h2,
      if_neg (by simp : ¬(w1 ++ ('=' :: (w2 ++ (vh :: vt))) = [])), h3]
    dsimp only
    rw [if_neg (by simp : ¬('=' ≠ '=')), h4]
    dsimp only
    rw [if_neg (not_not_intro hvh), if_neg (not_not_intro h5), h1]

/-! ### The claims -/

/-- C1: the spec says the `ListOpen → NoList` transition (a closing bracket
right after the opening bracket) yields `EmptyList` when empty lists are
disallowed — which the code does — and succeeds when the configuration
allows empty lists, with `mylist = [ ]` then parsing cleanly with zero
callbacks.  The code does not: with `ALLOW_EMPTY_LISTS = true` the
`else if (next == NOLIST && !ALLOW_EMPTY_LISTS)` guard falls through to
`return CINIC_MALFORMED_LIST` (cinic.c:118-120), so the transition is a
fatal error under both configurations and the end-to-end parse of
`mylist = [ ]` aborts at line 1 instead of continuing.  This contradicts
cinic.c's own documentation (lines 21-27 and 640-642: empty lists are
errors *iff* the flag is false). -/
theorem C1_empty_list_code_bug :
    Cinic_get_list_error false .LIST_OPEN .NOLIST = .CINIC_EMPTY_LIST
    ∧ Cinic_get_list_error true .LIST_OPEN .NOLIST = .CINIC_MALFORMED_LIST
    ∧ (Cinic_parse ⟨false, false⟩ (fun _ _ _ _ _ => 0)
        ["mylist = [ ]".toList, "[s]".toList, "k = v".toList]).1 =
      .fatal .CINIC_EMPTY_LIST 1
    ∧ Cinic_parse ⟨false, true⟩ (fun _ _ _ _ _ => 0)
        ["mylist = [ ]".toList, "[s]".toList, "k = v".toList] =
      (.fatal .CINIC_MALFORMED_LIST 1, []) := by
  refine ⟨rfl, rfl, by decide, by decide⟩

/-- C2: `Cinic_get_list_error` returns success exactly on the transitions
the table of spec §4.4 lists as legal, and a non-success error kind on
every other pair, for both settings of the empty-list flag.  (On the
caveat pair `ListOpen → NoList` the flag only selects which error kind is
returned — `EmptyList` or `MalformedList` — never success; see C1.) -/
theorem C2_transition_table :
    ∀ (ae : Bool) (prev next : ListState),
      (Cinic_get_list_error ae prev next = .CINIC_SUCCESS) ↔
      spec_legal_transition prev next = true := by
  intro ae prev next
  cases ae <;> cases prev <;> cases next <;> decide

/-- C3: parsing `[a] / mylist = [ / one, / two, / three / ]` invokes the
callback exactly three times, in order, with
`(3, ListOngoing, "a", "mylist", "one")`,
`(4, ListOngoing, "a", "mylist", "two")`,
`(5, ListLast, "a", "mylist", "three")`; the list head, opening bracket
and closing bracket update state with no callback; the parse ends
successfully — for every callback that answers `0` (continue) on those
three invocations. -/
theorem C3_multiline_list_trace (cb : Callback)
    (h1 : cb 3 .LIST_ONGOING "a".toList "mylist".toList "one".toList = 0)
    (h2 : cb 4 .LIST_ONGOING "a".toList "mylist".toList "two".toList = 0)
    (h3 : cb 5 .LIST_LAST "a".toList "mylist".toList "three".toList = 0) :
    Cinic_parse ⟨false, false⟩ cb
      ["[a]".toList, "mylist = [".toList, "one,".toList, "two,".toList,
       "three".toList, "]".toList] =
    (.ok,
     [⟨3, .LIST_ONGOING, "a".toList, "mylist".toList, "one".toList⟩,
      ⟨4, .LIST_ONGOING, "a".toList, "mylist".toList, "two".toList⟩,
      ⟨5, .LIST_LAST, "a".toList, "mylist".toList, "three".toList⟩]) := by
  have hext : cb = fun ln st s k v =>
      if (ln, st, s, k, v) =
          (3, ListState.LIST_ONGOING, "a".toList, "mylist".toList, "one".toList)
      then 0
      else if (ln, st, s, k, v) =
          (4, ListState.LIST_ONGOING, "a".toList, "mylist".toList, "two".toList)
      then 0
      else if (ln, st, s, k, v) =
          (5, ListState.LIST_LAST, "a".toList, "mylist".toList, "three".toList)
      then 0
      else cb ln st s k v := by
    funext ln st s k v
    by_cases hc1 : (ln, st, s, k, v) =
        (3, ListState.LIST_ONGOING, "a".toList, "mylist".toList, "one".toList)
    · rw [if_pos hc1]
      simp only [Prod.mk.injEq] at hc1
      obtain ⟨rfl, rfl, rfl, rfl, rfl⟩ := hc1
      exact h1
    · rw [if_neg hc1]
      by_cases hc2 : (ln, st, s, k, v) =
          (4, ListState.LIST_ONGOING, "a".toList, "mylist".toList, "two".toList)
      · rw [if_pos hc2]
        simp only [Prod.mk.injEq] at hc2
        obtain ⟨rfl, rfl, rfl, rfl, rfl⟩ := hc2
        exact h2
      · rw [if_neg hc2]
        by_cases hc3 : (ln, st, s, k, v) =
            (5, ListState.LIST_LAST, "a".toList, "mylist".toList, "three".toList)
        · rw [if_pos hc3]
          simp only [Prod.mk.injEq] at hc3
          obtain ⟨rfl, rfl, rfl, rfl, rfl⟩ := hc3
          exact h3
        · rw [if_neg hc3]
  rw [hext]
  rfl

/-- C3 witness: the always-continue callback satisfies the three
hypotheses, and the parse indeed yields exactly those three invocations. -/
theorem C3_multiline_list_trace_witness :
    Cinic_parse ⟨false, false⟩ (fun _ _ _ _ _ => 0)
      ["[a]".toList, "mylist = [".toList, "one,".toList, "two,".toList,
       "three".toList, "]".toList] =
    (.ok,
     [⟨3, .LIST_ONGOING, "a".toList, "mylist".toList, "one".toList⟩,
      ⟨4, .LIST_ONGOING, "a".toList, "mylist".toList, "two".toList⟩,
      ⟨5, .LIST_LAST, "a".toList, "mylist".toList, "three".toList⟩]) :=
  C3_multiline_list_trace (fun _ _ _ _ _ => 0) rfl rfl rfl

/-- C4 counterexample: the claim says `mylist = [one,, two]` terminates the
parse with fatal `RedundantComma` at that line; in fact the driver reports
fatal `Malformed` there.  `get_list_token` yields the bare token `,` for
the duplicated comma, and no list classifier recognizes it, so the final
`else` branch of the token loop fires `CINIC_MALFORMED` (cinic.c:762-766),
not `CINIC_REDUNDANT_COMMA`. -/
theorem C4_redundant_comma_counterexample :
    (Cinic_parse ⟨false, false⟩ (fun _ _ _ _ _ => 0)
        ["[s]".toList, "mylist = [one,, two]".toList]).1 =
      .fatal .CINIC_MALFORMED 2
    ∧ CinicError.CINIC_MALFORMED ≠ .CINIC_REDUNDANT_COMMA := by
  exact ⟨by decide, by decide⟩

/-- C4 (amended): parsing `mylist = [one,, two]` terminates the parse with
the fatal error kind `Malformed` reported at that line (after one callback
for the entry `one`): the bare-comma token produced by the duplicated
comma is not recognized by any list classifier.  (`RedundantComma` arises
instead when a closing bracket directly follows a comma-terminated
entry.) -/
theorem C4_double_comma_malformed :
    Cinic_parse ⟨false, false⟩ (fun _ _ _ _ _ => 0)
      ["[s]".toList, "mylist = [one,, two]".toList] =
    (.fatal .CINIC_MALFORMED 2,
     [⟨2, .LIST_ONGOING, "s".toList, "mylist".toList, "one".toList⟩]) := by
  decide

/-- C5: for every input and every callback, (1) every invocation except
possibly the last returned 0 — a nonzero return is never followed by
another invocation or another processed line; (2) if some invocation
returns a nonzero code, the parse result is `stopped` with exactly that
code, the code of the last invocation, unchanged; (3) if the callback
always returns 0 and no fatal error occurs, `Cinic_parse` returns 0
(`ok`). -/
theorem C5_callback_stop_propagation :
    ∀ (cfg : Config) (cb : Callback) (lines : List (List Char)),
      (∀ c ∈ (Cinic_parse cfg cb lines).2.dropLast, cbRes cb c = 0)
      ∧ ((∃ c ∈ (Cinic_parse cfg cb lines).2, cbRes cb c ≠ 0) →
          ∃ c, (Cinic_parse cfg cb lines).2.getLast? = some c ∧
            cbRes cb c ≠ 0 ∧
            (Cinic_parse cfg cb lines).1 = .stopped (cbRes cb c))
      ∧ ((∀ c ∈ (Cinic_parse cfg cb lines).2, cbRes cb c = 0) →
          (∀ e ln, (Cinic_parse cfg cb lines).1 ≠ .fatal e ln) →
          (Cinic_parse cfg cb lines).1 = .ok) := by
  intro cfg cb lines
  have h : TraceOK2 cb (Cinic_parse cfg cb lines) :=
    parse_lines_trace cfg cb lines 0 [] .NOLIST [] []
  rcases hres : Cinic_parse cfg cb lines with ⟨out, tr⟩
  rw [hres] at h
  rcases out with _ | r | ⟨e, n⟩
  · refine ⟨fun c hc => h c ((List.dropLast_sublist tr).subset hc), ?_, ?_⟩
    · rintro ⟨c, hc, hnz⟩
      exact absurd (h c hc) hnz
    · intro _ _
      rfl
  · obtain ⟨pre, c, htr, hz, hcr, hr⟩ := h
    refine ⟨?_, ?_, ?_⟩
    · intro x hx
      rw [htr, List.dropLast_concat] at hx
      exact hz x hx
    · intro _
      refine ⟨c, ?_, ?_, ?_⟩
      · rw [htr]
        exact List.getLast?_concat pre
      · rw [hcr]
        exact hr
      · rw [hcr]
    · intro hall _
      exact absurd (hcr ▸ hall c (htr ▸ List.mem_append_right pre (by simp))) hr
  · refine ⟨fun c hc => h c ((List.dropLast_sublist tr).subset hc), ?_, ?_⟩
    · rintro ⟨c, hc, hnz⟩
      exact absurd (h c hc) hnz
    · intro _ hnf
      exact absurd rfl (hnf e n)

/-- C5 witness: with the constant-7 callback on `[a] / k = v / x = y` the
first record invocation stops the parse and `Cinic_parse` returns 7; with
the constant-0 callback on `[a] / k = v` the parse ends with 0. -/
theorem C5_callback_stop_propagation_witness :
    (∃ c, (Cinic_parse ⟨false, false⟩ (fun _ _ _ _ _ => 7)
        ["[a]".toList, "k = v".toList, "x = y".toList]).2.getLast? = some c ∧
      cbRes (fun _ _ _ _ _ => 7) c ≠ 0 ∧
      (Cinic_parse ⟨false, false⟩ (fun _ _ _ _ _ => 7)
        ["[a]".toList, "k = v".toList, "x = y".toList]).1 =
        .stopped (cbRes (fun _ _ _ _ _ => 7) c))
    ∧ (Cinic_parse ⟨false, false⟩ (fun _ _ _ _ _ => 0)
        ["[a]".toList, "k = v".toList]).1 = .ok :=
  ⟨(C5_callback_stop_propagation ⟨false, false⟩ (fun _ _ _ _ _ => 7)
      ["[a]".toList, "k = v".toList, "x = y".toList]).2.1 (by decide),
   (C5_callback_stop_propagation ⟨false, false⟩ (fun _ _ _ _ _ => 0)
      ["[a]".toList, "k = v".toList]).2.2 (by decide)
      (fun e ln hcon => by
        rw [show (Cinic_parse ⟨false, false⟩ (fun _ _ _ _ _ => 0)
          ["[a]".toList, "k = v".toList]).1 = ParseOutcome.ok from by decide]
          at hcon
        exact ParseOutcome.noConfusion hcon)⟩

/-- C6: `is_section_line` accepts exactly the lines of the form `[`,
optional whitespace, a run of one or more allowed characters with no
embedded whitespace, optional whitespace, `]`, with nothing after the
closing bracket, extracting that run as the section name; it accepts
`[a.b.c]` yielding `a.b.c` and rejects `[]` and `[a b]`. -/
theorem C6_section_header_classifier :
    (∀ line name : List Char,
      is_section_line line = some name ↔ SpecSectionHeader line name)
    ∧ is_section_line "[a.b.c]".toList = some "a.b.c".toList
    ∧ is_section_line "[]".toList = none
    ∧ is_section_line "[a b]".toList = none := by
  refine ⟨fun line name =>
    ⟨spec_of_is_section_line, is_section_line_of_spec⟩, ?_, ?_, ?_⟩
  · decide
  · decide
  · decide

/-- C7: `is_record_line` accepts exactly the lines made of a nonempty run
of allowed characters without whitespace (the key), optional whitespace,
one `=`, optional whitespace, and a nonempty value in which embedded
whitespace is permitted but no further `=` or disallowed character occurs
before end of line; it extracts `(key, value)`; it accepts `k = v` and
(after normalization) ` key = val with spaces `, and rejects `k=v=w`. -/
theorem C7_record_classifier :
    (∀ line key value : List Char,
      is_record_line line = some (key, value) ↔ SpecRecord line key value)
    ∧ is_record_line "k = v".toList = some ("k".toList, "v".toList)
    ∧ is_record_line "k=v=w".toList = none
    ∧ is_record_line (normalize " key = val with spaces ".toList) =
        some ("key".toList, "val with spaces".toList) := by
  refine ⟨fun line key value =>
    ⟨spec_of_is_record_line, is_record_line_of_spec⟩, ?_, ?_, ?_⟩
  · decide
  · decide
  · decide

/-- C8: normalization (stripping leading whitespace, the trailing comment,
and trailing whitespace) is idempotent, and it always succeeds, yielding
the empty string on an all-whitespace or empty line. -/
theorem C8_normalization :
    (∀ line : List Char, normalize (normalize line) = normalize line)
    ∧ (∀ line : List Char, (∀ c ∈ line, isspace c = true) →
        normalize line = []) :=
  ⟨normalize_idem, fun _ h => normalize_all_space h⟩

/-- C8 witness: idempotence on a concrete messy line, and the all-blank
line `" \t"` (whose characters are all whitespace) normalizes to the empty
string. -/
theorem C8_normalization_witness :
    normalize (normalize "  k = v ; comment".toList) =
      normalize "  k = v ; comment".toList
    ∧ ((∀ c ∈ [' ', '\t'], isspace c = true)
        ∧ normalize [' ', '\t'] = []) :=
  ⟨C8_normalization.1 ("  k = v ; comment".toList),
   by decide,
   C8_normalization.2 [' ', '\t'] (by decide)⟩

/-- C9 counterexample: the claim says `Cinic_init` accepts the namespace
delimiter iff its length is exactly 1, rejecting in particular the empty
string.  The code only rejects when `strlen(section_delim) > 1`
(cinic.c:796), so the empty string is accepted even though its length is
not 1. -/
theorem C9_delimiter_counterexample :
    (Cinic_init false false "".toList).isSome = true
    ∧ ("".toList : List Char).length ≠ 1 := by
  decide

/-- C9 (amended): `Cinic_init` accepts a delimiter string iff its length
is at most 1 — strings longer than one character are rejected with a
configuration error, a single character is accepted, and the empty string
is (also) accepted. -/
theorem C9_delimiter_validation :
    ∀ (ag ae : Bool) (d : List Char),
      (Cinic_init ag ae d).isSome = true ↔ d.length ≤ 1 := by
  intro ag ae d
  unfold Cinic_init
  by_cases h : d.length > 1
  · rw [if_pos h]
    simp
    omega
  · rw [if_neg h]
    simp
    omega

/-- C10: the list tokenizer makes strict progress — on every line,
`get_list_token` either signals end of input (`none`) or returns a
continuation strictly shorter than its input, so the driver's per-line
token loop performs only finitely many iterations. -/
theorem C10_tokenizer_progress :
    ∀ line : List Char,
      get_list_token line = none ∨
      ∃ tok rest, get_list_token line = some (tok, rest) ∧
        rest.length < line.length := by
  intro line
  rcases h : get_list_token line with _ | ⟨tok, rest⟩
  · exact Or.inl rfl
  · exact Or.inr ⟨tok, rest, rfl, get_list_token_progress h⟩

end Cinic
